import Mathlib

/-!
Verification of the editset-based batch code-transformation engine of
`claude-tools` against its natural-language specification.

The TypeScript sources are shallowly embedded as Lean definitions:

* pure string transforms (`computeNewName`, `applyReplacement`) become pure
  Lean functions over `List Char` / `String`;
* the external collaborators (the sha256 digest from `crypto`, the ts-morph
  reference resolver, the spawned `rg` process, the filesystem) become
  explicit function parameters or sum-typed inputs, so every embedded
  function stays executable and deterministic;
* JavaScript `string.toUpperCase`/`toLowerCase` are modelled by
  `Char.toUpper`/`Char.toLower` (the engine only manipulates ASCII
  identifiers and filenames);
* a JavaScript `RegExp` built from a plain string with flag `i` or `gi`
  (the only way the engine builds the rename patterns, see
  `refactor.ts`: `new RegExp(pattern, "i")` and
  `file-ops.ts`: `new RegExp(pattern, "gi")`) is modelled as
  case-insensitive literal substring matching, leftmost first;
  the engine never passes an empty pattern, and the model treats an empty
  pattern as matching nothing.
-/

namespace ClaudeTools

/-! ## String helpers (JS `toUpperCase`, `toLowerCase`, case tests) -/

/-- JS `s.toUpperCase()` on a code-unit list (ASCII). -/
def upperL (l : List Char) : List Char := l.map Char.toUpper

/-- JS `s.toLowerCase()` on a code-unit list (ASCII). -/
def lowerL (l : List Char) : List Char := l.map Char.toLower

/-- JS `s[0] === s[0].toUpperCase()` (source guards ensure nonempty input;
`[]` is mapped to `false`). -/
def firstUpperL : List Char → Bool
  | [] => false
  | c :: _ => c.toUpper == c

/-- JS `s[0].toUpperCase() + s.slice(1)`. -/
def capFirstL : List Char → List Char
  | [] => []
  | c :: cs => c.toUpper :: cs

/-- JS `s.toUpperCase()` on a string. -/
def upperStr (s : String) : String := (upperL s.toList).asString

/-- JS `s.toLowerCase()` on a string. -/
def lowerStr (s : String) : String := (lowerL s.toList).asString

/-- JS `s[0].toUpperCase() + s.slice(1)` on a string. -/
def capFirst (s : String) : String := (capFirstL s.toList).asString

/-- The string's first character is its own uppercase form. -/
def firstUpper (s : String) : Bool := firstUpperL s.toList

/-- The entire string is its own uppercase form. -/
def isUpperStr (s : String) : Bool := s.toList == upperL s.toList

/-- `pre` is a prefix of the second list. -/
def isPrefixL : List Char → List Char → Bool
  | [], _ => true
  | _ :: _, [] => false
  | a :: as, b :: bs => a == b && isPrefixL as bs

/-- `sub` occurs as a contiguous run inside the second list. -/
def isInfixL (sub : List Char) : List Char → Bool
  | [] => sub.isEmpty
  | c :: rest => isPrefixL sub (c :: rest) || isInfixL sub rest

/-- `sub` occurs as a contiguous substring of `s` (JS `String.includes`). -/
def containsSub (s sub : String) : Bool := isInfixL sub.toList s.toList

/-! ## Case-insensitive literal replacement

`String.prototype.replace` with a literal pattern compiled with flag
`gi` (replace every occurrence) or `i` (replace the first occurrence),
calling a render function on each matched slice.  The recursion is
structural in a fuel argument initialised to the subject's length, which
bounds the number of scanning steps. -/

/-- Replace every leftmost case-insensitive occurrence of `pat`
(JS `subject.replace(new RegExp(pat, "gi"), render)`). -/
def replaceAllFuel (pat : List Char) (render : List Char → List Char) :
    Nat → List Char → List Char
  | _, [] => []
  | 0, l => l
  | fuel + 1, c :: rest =>
    if pat ≠ [] ∧ lowerL (List.take pat.length (c :: rest)) = lowerL pat then
      render (List.take pat.length (c :: rest)) ++
        replaceAllFuel pat render fuel (List.drop pat.length (c :: rest))
    else
      c :: replaceAllFuel pat render fuel rest

/-- Replace only the first case-insensitive occurrence of `pat`
(JS `subject.replace(new RegExp(pat, "i"), render)`). -/
def replaceFirstFuel (pat : List Char) (render : List Char → List Char) :
    Nat → List Char → List Char
  | _, [] => []
  | 0, l => l
  | fuel + 1, c :: rest =>
    if pat ≠ [] ∧ lowerL (List.take pat.length (c :: rest)) = lowerL pat then
      render (List.take pat.length (c :: rest)) ++ List.drop pat.length (c :: rest)
    else
      c :: replaceFirstFuel pat render fuel rest

/-! ## `computeNewName` (symbols.ts lines 216-229)

```ts
export function computeNewName(oldName: string, pattern: RegExp, replacement: string): string {
  return oldName.replace(pattern, (match) => {
    if (match === match.toUpperCase() && match.length > 1) {
      return replacement.toUpperCase()
    }
    if (match[0] === match[0].toUpperCase()) {
      return replacement[0].toUpperCase() + replacement.slice(1)
    }
    return replacement.toLowerCase()
  })
}
```
The pattern reaching it is `new RegExp(pattern, "i")` (refactor.ts). -/

/-- The per-match render callback of `computeNewName`. -/
def caseCallbackL (m repl : List Char) : List Char :=
  if m = upperL m ∧ 1 < m.length then upperL repl
  else if firstUpperL m then capFirstL repl
  else lowerL repl

/-- `computeNewName` from `symbols.ts` (both plugin copies are identical). -/
def computeNewName (oldName pat repl : String) : String :=
  (replaceFirstFuel pat.toList (fun m => caseCallbackL m repl.toList)
    oldName.toList.length oldName.toList).asString

/-! ## `applyReplacement` (file-ops.ts lines 40-51)

```ts
export function applyReplacement(filename, pattern, replacement) {
  if (typeof pattern === "string") {
    return filename.replace(new RegExp(pattern, "gi"), (match) => {
      if (match === match.toUpperCase()) return replacement.toUpperCase()
      if (match[0] === match[0].toUpperCase()) return replacement[0].toUpperCase() + replacement.slice(1)
      return replacement
    })
  }
  return filename.replace(pattern, replacement)
}
```
Only the string-pattern branch is exercised by the file-rename backend. -/

/-- The per-match render callback of `applyReplacement` (string pattern).
Unlike `caseCallbackL` it has no `match.length > 1` guard and its fallback
returns the replacement unchanged instead of lowercasing it. -/
def fileCaseCallbackL (m repl : List Char) : List Char :=
  if m = upperL m then upperL repl
  else if firstUpperL m then capFirstL repl
  else repl

/-- `applyReplacement` from `file-ops.ts` (string-pattern branch). -/
def applyReplacement (filename pat repl : String) : String :=
  (replaceAllFuel pat.toList (fun m => fileCaseCallbackL m repl.toList)
    filename.toList.length filename.toList).asString

/-! ## Data model (types.ts)

`Reference.range` is the 1-indexed `[startLine, startCol, endLine, endCol]`
tuple; `Edit` is one byte-level mutation.  The TypeScript field `from` is
spelled `fromName` (`from` is reserved in Lean). -/

structure RefRange where
  startLine : Nat
  startCol : Nat
  endLine : Nat
  endCol : Nat
deriving DecidableEq, Repr

structure Reference where
  refId : String
  file : String
  range : RefRange
  preview : String
  checksum : String
  selected : Bool
deriving DecidableEq, Repr

structure Edit where
  file : String
  offset : Nat
  length : Nat
  replacement : String
deriving DecidableEq, Repr

structure SymbolMatch where
  symbolKey : String
  name : String
  kind : String
  file : String
  line : Nat
  refCount : Nat
deriving DecidableEq, Repr

structure Editset where
  id : String
  operation : String
  fromName : String
  toName : String
  refs : List Reference
  edits : List Edit
  createdAt : String
deriving DecidableEq, Repr

/-! ## Sorting (JS `Array.prototype.sort` with a comparator)

JS sort is modelled as insertion sort by a boolean `le`; the engine's
comparators are total preorders, for which any comparison sort produces
the same pairwise-sorted guarantee the claims are about. -/

/-- Insert `x` into `l` before the first element `y` with `le x y`. -/
def insertBy (le : α → α → Bool) (x : α) : List α → List α
  | [] => [x]
  | y :: ys => if le x y then x :: y :: ys else y :: insertBy le x ys

/-- Insertion sort by `le`. -/
def sortBy (le : α → α → Bool) (l : List α) : List α :=
  l.foldr (insertBy le) []

/-- The edit comparator used by every generator
(`a.file.localeCompare(b.file)` then `b.offset - a.offset`);
`localeCompare` is modelled as lexicographic string order. -/
def editLe (a b : Edit) : Bool :=
  if a.file = b.file then decide (b.offset ≤ a.offset) else decide (a.file < b.file)

/-- Sort an edit list by file, then by offset descending. -/
def sortEdits (l : List Edit) : List Edit := sortBy editLe l

/-! ## Identity utilities (part_003 lines 253-266)

`createHash("sha256")...digest("hex")` is the external crypto primitive;
it enters the model as an explicit `hash : String → String` parameter. -/

/-- The digest input `file:startLine:startCol:endLine:endCol`. -/
def refIdInput (file : String) (sl sc el ec : Nat) : String :=
  file ++ ":" ++ toString sl ++ ":" ++ toString sc ++ ":" ++ toString el ++ ":" ++ toString ec

/-- `computeRefId`: digest of the location tuple, truncated to 8 chars. -/
def computeRefId (hash : String → String) (file : String) (sl sc el ec : Nat) : String :=
  (hash (refIdInput file sl sc el ec)).take 8

/-- A location tuple, as enumerated by a discovery run. -/
structure Loc where
  file : String
  startLine : Nat
  startCol : Nat
  endLine : Nat
  endCol : Nat
deriving DecidableEq, Repr

/-! ## Edit generation (editset.ts lines 136-211, part_005 lines 179-222)

The ts-morph project is the external AST engine: it enters the model as
`getFile : String → Option String` (source text of a project file) and
`getRefs : String → List Reference` (scope-resolved references of a
symbol key). -/

/-- Byte offset of a 1-indexed (line, column) position: sum of the
lengths (+1 for the newline) of the preceding lines plus the column. -/
def computeOffset (content : String) (line col : Nat) : Nat :=
  let lines := content.splitOn "\n"
  ((lines.take (line - 1)).foldl (fun a l => a + l.length + 1) 0) + (col - 1)

/-- `generateEditsFromRefs`: one edit per reference (skipping references
whose file the project cannot provide), sorted by file then descending
offset. -/
def generateEditsFromRefs (getFile : String → Option String)
    (refs : List Reference) (oldName newName : String) : List Edit :=
  sortEdits (refs.filterMap (fun r =>
    (getFile r.file).map (fun content =>
      { file := r.file
        offset := computeOffset content r.range.startLine r.range.startCol
        length := oldName.length
        replacement := newName })))

/-- Deduplicate edits by exact `(file, offset, length)`, keeping the first
occurrence (the JS `seenLocations` set). -/
def dedupEditsAux (seen : List (String × Nat × Nat)) : List Edit → List Edit
  | [] => []
  | e :: es =>
    if seen.contains (e.file, e.offset, e.length) then dedupEditsAux seen es
    else e :: dedupEditsAux ((e.file, e.offset, e.length) :: seen) es

/-- Deduplicate edits by exact `(file, offset, length)`. -/
def dedupEdits (l : List Edit) : List Edit := dedupEditsAux [] l

/-- `generateBatchEdits`: per matching symbol, compute the case-preserved
new name, skip no-ops, generate that symbol's edits, deduplicate by exact
location, and sort by file then descending offset. -/
def generateBatchEdits (getFile : String → Option String)
    (getRefs : String → List Reference)
    (symbols : List SymbolMatch) (pat repl : String) : List Edit :=
  sortEdits (dedupEdits (symbols.foldl (fun acc sym =>
    let newName := computeNewName sym.name pat repl
    if newName = sym.name then acc
    else acc ++ generateEditsFromRefs getFile (getRefs sym.symbolKey) sym.name newName) []))

/-- `content.slice(offset, offset + len)` on code units. -/
def sliceAt (content : String) (offset len : Nat) : String :=
  ((content.toList.drop offset).take len).asString

/-- `generateEdits` of the text-pattern backend (part_005): per selected
reference, recompute the byte offset, take the matched slice, and apply
the replacement regex to it; `regexReplace` stands for the JS
`matchedText.replace(new RegExp(pattern, "g"), replacement)` call, an
external regex-engine step. -/
def generateEditsText (getFile : String → Option String)
    (regexReplace : String → String) (refs : List Reference) : List Edit :=
  sortEdits (refs.filterMap (fun r =>
    if r.selected then
      (getFile r.file).map (fun content =>
        let offset := computeOffset content r.range.startLine r.range.startCol
        let matchLength := r.range.endCol - r.range.startCol
        { file := r.file
          offset := offset
          length := matchLength
          replacement := regexReplace (sliceAt content offset matchLength) })
    else none))

/-! ## `filterEditset` (editset.ts lines 84-116) -/

/-- `filterEditset`: positive selection by `inc` (when given and
non-empty), then subtraction by `exc` (when given and non-empty), then
recompute the edit list as the edits whose file is the file of some
selected ref. -/
def filterEditset (es : Editset) (inc exc : Option (List String)) : Editset :=
  let refs1 := match inc with
    | some l =>
      if l.length > 0 then es.refs.map (fun r => { r with selected := l.contains r.refId })
      else es.refs
    | none => es.refs
  let refs2 := match exc with
    | some l =>
      if l.length > 0 then refs1.map (fun r => { r with selected := r.selected && !(l.contains r.refId) })
      else refs1
    | none => refs1
  let selectedFiles := (refs2.filter (fun r => r.selected)).map (fun r => r.file)
  { es with refs := refs2, edits := es.edits.filter (fun e => selectedFiles.contains e.file) }

/-! ## File-rename backend (file-ops.ts lines 251-310)

The filesystem is modelled as a path → content map
(`FS := String → Option String`); `fs.renameSync` moves the content; the
sha256 content digest is the explicit `chk` parameter.  Path
absolutisation (`path.join(cwd, ...)`) is dropped: paths are taken as
already resolved.  In the model a rename that passes the checks always
succeeds (the JS `try/catch` around `renameSync` catches OS errors that
have no counterpart in a total map). -/

abbrev FS := String → Option String

structure FileOp where
  opId : String
  oldPath : String
  newPath : String
  checksum : String
deriving DecidableEq, Repr

structure FileEditset where
  id : String
  operation : String
  pattern : String
  replacement : String
  fileOps : List FileOp
  createdAt : String
deriving DecidableEq, Repr

structure RenameResult where
  applied : Nat
  skipped : Nat
  errors : List String
deriving DecidableEq, Repr

/-- `fs.renameSync(oldP, newP)` on the path → content map. -/
def renameFile (fs : FS) (oldP newP : String) : FS :=
  fun p => if p = newP then fs oldP else if p = oldP then none else fs p

/-- The guard `applyFileRenames` evaluates immediately before each rename:
the file still exists and its current content digest equals the recorded
one. -/
def opPasses (chk : String → String) (fs : FS) (op : FileOp) : Bool :=
  match fs op.oldPath with
  | none => false
  | some content => chk content == op.checksum

/-- The per-operation loop of `applyFileRenames`: re-check existence and
checksum, count a failing operation as skipped (with a reason string) and
continue; otherwise perform the rename (or only count it under
`dryRun`). -/
def applyOps (chk : String → String) (dryRun : Bool) :
    List FileOp → FS → RenameResult × FS
  | [], fs => (⟨0, 0, []⟩, fs)
  | op :: ops, fs =>
    match fs op.oldPath with
    | none =>
      let r := applyOps chk dryRun ops fs
      (⟨r.1.applied, r.1.skipped + 1, (op.oldPath ++ ": file no longer exists") :: r.1.errors⟩, r.2)
    | some content =>
      if chk content ≠ op.checksum then
        let r := applyOps chk dryRun ops fs
        (⟨r.1.applied, r.1.skipped + 1, (op.oldPath ++ ": checksum mismatch, skipping") :: r.1.errors⟩, r.2)
      else if dryRun then
        let r := applyOps chk dryRun ops fs
        (⟨r.1.applied + 1, r.1.skipped, r.1.errors⟩, r.2)
      else
        let r := applyOps chk dryRun ops (renameFile fs op.oldPath op.newPath)
        (⟨r.1.applied + 1, r.1.skipped, r.1.errors⟩, r.2)

/-- `applyFileRenames` (the initial `verifyFileEditset` call only logs to
stderr and does not alter control flow, so it is not part of the state
transition). -/
def applyFileRenames (chk : String → String) (editset : FileEditset)
    (dryRun : Bool) (fs : FS) : RenameResult × FS :=
  applyOps chk dryRun editset.fileOps fs

/-! ## Text-pattern backend (part_005)

`execFileSync("rg", args)` either returns stdout (already split into
NDJSON records here; JSON decoding of well-formed `rg --json` output is
taken as given) or throws an error carrying an optional exit `status` and
a `message`.  Errors are modelled with `Except`. -/

structure RgSub where
  text : String
  start : Nat
  stop : Nat
deriving DecidableEq, Repr

structure RgMatch where
  path : String
  lineText : String
  lineNumber : Nat
  absoluteOffset : Nat
  submatches : List RgSub
deriving DecidableEq, Repr

/-- One NDJSON record of `rg --json` output: a `match` record or any
other record type (`begin`, `end`, `summary`, ...). -/
inductive RgLine where
  | matchRec : RgMatch → RgLine
  | other : String → RgLine
deriving DecidableEq, Repr

/-- The error thrown by `execFileSync`: exit status (absent for spawn
failures) and message. -/
structure ExecFailure where
  status : Option Nat
  message : String
deriving DecidableEq, Repr

/-- The distinct installation-instruction error raised for a missing
executable. -/
def rgMissingMsg : String := "ripgrep (rg) not found. Install via: brew install ripgrep"

/-- `runRg`: on success keep the `match` records; exit status 1 (zero
matches) is a normal empty result; a spawn failure whose message names
`ENOENT`/`not found` becomes the distinct ripgrep-missing error; anything
else is rethrown. -/
def runRg (spawn : Except ExecFailure (List RgLine)) : Except String (List RgMatch) :=
  match spawn with
  | .ok lines =>
    .ok (lines.filterMap (fun l => match l with
      | .matchRec m => some m
      | .other _ => none))
  | .error e =>
    if e.status == some 1 then .ok []
    else if containsSub e.message "ENOENT" || containsSub e.message "not found" then
      .error rgMissingMsg
    else .error e.message

/-- `parseMatches`: convert `rg` match records into references (skipping
files the filesystem no longer has), one per submatch, with 1-indexed
columns, the trimmed line as preview, the containing file's checksum and
the stable ref id. -/
def parseMatches (chk hash : String → String) (getFile : String → Option String)
    (ms : List RgMatch) (pat : String) : List Reference :=
  ms.foldl (fun acc m =>
    match getFile m.path with
    | none => acc
    | some content =>
      acc ++ m.submatches.map (fun sub =>
        let startCol := sub.start + 1
        let endCol := sub.stop + 1
        { refId := computeRefId hash m.path m.lineNumber startCol m.lineNumber endCol
          file := m.path
          range := ⟨m.lineNumber, startCol, m.lineNumber, endCol⟩
          preview := m.lineText.trim ++ " // " ++ sub.text ++ " -> " ++ pat
          checksum := chk content
          selected := true })) []

/-- `findPatterns`: run `rg` and parse its matches; the two failure modes
of `runRg` propagate unchanged. -/
def findPatterns (chk hash : String → String) (getFile : String → Option String)
    (pat : String) (spawn : Except ExecFailure (List RgLine)) :
    Except String (List Reference) :=
  match runRg spawn with
  | .error e => .error e
  | .ok ms => .ok (parseMatches chk hash getFile ms pat)

/-! ## Symbol discovery (symbols.ts lines 96-211 and part_003 lines 102-181)

The ts-morph syntax tree is embedded as the fragment the two
`findSymbols` implementations inspect: per-file declaration lists whose
variable/parameter name nodes are either identifiers or object/array
binding patterns.  An identifier node carries its text, position and the
length of `findReferencesAsNodes()` (the scope resolution the external
AST engine performs); `findReferencesAsNodes` is absent on pattern nodes
(`?.` yields `undefined`, `|| 0` makes the count 0).

The search pattern reaches `findSymbols` as `new RegExp(pattern, "i")`
(refactor.ts), so `pattern.test(name)` is modelled as case-insensitive
literal substring search. -/

structure SymNode where
  name : String
  line : Nat
  col : Nat
  refCount : Nat
deriving DecidableEq, Repr

structure NodeMeta where
  line : Nat
  col : Nat
deriving DecidableEq, Repr

/-- A name-binding node: a plain identifier or a destructuring pattern. -/
inductive BindingNode where
  | ident : SymNode → BindingNode
  | objPattern : NodeMeta → List BindingNode → BindingNode
  | arrPattern : NodeMeta → List BindingNode → BindingNode

mutual

/-- `node.getText()` of a name-binding node: the source text of a
destructuring pattern renders its elements between braces/brackets,
separated by commas. -/
def bindingText : BindingNode → String
  | .ident s => s.name
  | .objPattern _ es => "\x7b " ++ bindingTextList es ++ " \x7d"
  | .arrPattern _ es => "[" ++ bindingTextList es ++ "]"

/-- Comma-separated rendering of pattern elements. -/
def bindingTextList : List BindingNode → String
  | [] => ""
  | [x] => bindingText x
  | x :: y :: xs => bindingText x ++ ", " ++ bindingTextList (y :: xs)

end

mutual

/-- All identifier leaves of a name-binding node, in document order (the
identifiers `forEachDescendant` visits through `BindingElement` name
nodes). -/
def bindingIdents : BindingNode → List SymNode
  | .ident s => [s]
  | .objPattern _ es => bindingIdentsList es
  | .arrPattern _ es => bindingIdentsList es

/-- Identifier leaves of a list of pattern elements. -/
def bindingIdentsList : List BindingNode → List SymNode
  | [] => []
  | x :: xs => bindingIdents x ++ bindingIdentsList xs

end

/-- `node.getStartLineNumber()` of a name-binding node. -/
def nodeLine : BindingNode → Nat
  | .ident s => s.line
  | .objPattern m _ => m.line
  | .arrPattern m _ => m.line

/-- Start column of a name-binding node. -/
def nodeCol : BindingNode → Nat
  | .ident s => s.col
  | .objPattern m _ => m.col
  | .arrPattern m _ => m.col

/-- `node.findReferencesAsNodes?.()?.length || 0`: the resolver count for
identifiers, 0 for pattern nodes (the optional call yields `undefined`). -/
def nodeRefCount : BindingNode → Nat
  | .ident s => s.refCount
  | .objPattern _ _ => 0
  | .arrPattern _ _ => 0

/-- A declaration of the fragment `findSymbols` walks. -/
inductive Decl where
  | interfaceDecl : SymNode → List SymNode → Decl
  | typeAliasDecl : SymNode → Decl
  | functionDecl : Option SymNode → Decl
  | classDecl : Option SymNode → Decl
  | variableDecl : BindingNode → Decl
  | paramDecl : BindingNode → Decl

structure SrcFile where
  path : String
  decls : List Decl

/-- The in-memory project: its source files. -/
abbrev TsProject := List SrcFile

/-- `pattern.test(name)` for the engine's `new RegExp(pattern, "i")`
patterns: case-insensitive literal substring search. -/
def rxTest (pat name : String) : Bool :=
  isInfixL (lowerL pat.toList) (lowerL name.toList)

/-- The dedup key `file:line:col:name`. -/
def mkKey (fp : String) (line col : Nat) (name : String) : String :=
  fp ++ ":" ++ toString line ++ ":" ++ toString col ++ ":" ++ name

/-- The traversal state of `findSymbols`: the `seen` key set and the
accumulated matches. -/
structure SState where
  seen : List String
  found : List SymbolMatch
deriving DecidableEq, Repr

/-- The symbol match `addMatch` records for node `s` of file `fp`. -/
def mkMatch (fp : String) (s : SymNode) (kind : String) : SymbolMatch :=
  { symbolKey := mkKey fp s.line s.col s.name, name := s.name, kind := kind,
    file := fp, line := s.line, refCount := s.refCount }

/-- `addMatch`: skip already-seen `file:line:col:name` keys, otherwise
record the key and append the match. -/
def addMatch (fp : String) (s : SymNode) (kind : String) (st : SState) : SState :=
  let key := mkKey fp s.line s.col s.name
  if st.seen.contains key then st
  else { seen := key :: st.seen, found := st.found ++ [mkMatch fp s kind] }

/-- The interface loop: interface names plus their property names. -/
def stepInterface (pat fp : String) (st : SState) : Decl → SState
  | .interfaceDecl nm props =>
    let st1 := if rxTest pat nm.name then addMatch fp nm "interface" st else st
    props.foldl (fun s p => if rxTest pat p.name then addMatch fp p "property" s else s) st1
  | _ => st

/-- The type-alias loop. -/
def stepTypeAlias (pat fp : String) (st : SState) : Decl → SState
  | .typeAliasDecl nm => if rxTest pat nm.name then addMatch fp nm "type" st else st
  | _ => st

/-- The function loop (anonymous functions have no name and are skipped). -/
def stepFunction (pat fp : String) (st : SState) : Decl → SState
  | .functionDecl (some nm) => if rxTest pat nm.name then addMatch fp nm "function" st else st
  | _ => st

/-- The class loop. -/
def stepClass (pat fp : String) (st : SState) : Decl → SState
  | .classDecl (some nm) => if rxTest pat nm.name then addMatch fp nm "class" st else st
  | _ => st

/-- Batch backend handling of one name-binding node: a plain identifier
is tested directly (with the declaration's own kind); a destructuring
pattern is walked and each bound identifier is tested individually and
recorded with kind `variable` (`addBindingPatternMatches`). -/
def bindingMatches (pat fp identKind : String) (nn : BindingNode) (st : SState) : SState :=
  match nn with
  | .ident s => if rxTest pat s.name then addMatch fp s identKind st else st
  | .objPattern _ es =>
    (bindingIdentsList es).foldl
      (fun s i => if rxTest pat i.name then addMatch fp i "variable" s else s) st
  | .arrPattern _ es =>
    (bindingIdentsList es).foldl
      (fun s i => if rxTest pat i.name then addMatch fp i "variable" s else s) st

/-- The batch backend's `forEachDescendant` pass over variable and
parameter declarations. -/
def stepVarParam (pat fp : String) (st : SState) : Decl → SState
  | .variableDecl nn => bindingMatches pat fp "variable" nn st
  | .paramDecl nn => bindingMatches pat fp "parameter" nn st
  | _ => st

/-- One file of the batch `findSymbols` walk (dependency directories are
excluded by the `node_modules` path test). -/
def processFileBatch (pat : String) (st : SState) (sf : SrcFile) : SState :=
  if containsSub sf.path "node_modules" then st
  else
    let st1 := sf.decls.foldl (stepInterface pat sf.path) st
    let st2 := sf.decls.foldl (stepTypeAlias pat sf.path) st1
    let st3 := sf.decls.foldl (stepFunction pat sf.path) st2
    let st4 := sf.decls.foldl (stepVarParam pat sf.path) st3
    sf.decls.foldl (stepClass pat sf.path) st4

/-- The result comparator `(a, b) => b.refCount - a.refCount`. -/
def symLe (a b : SymbolMatch) : Bool := decide (b.refCount ≤ a.refCount)

/-- `findSymbols` of the batch ts-morph backend (symbols.ts 96-211). -/
def findSymbols (proj : TsProject) (pat : String) : List SymbolMatch :=
  sortBy symLe (proj.foldl (processFileBatch pat) ⟨[], []⟩).found

/-- The refactor plugin's variable loop (part_003 lines 139-144): it
tests `varDecl.getName()` — the full source text of the name node — and
records the name node itself, so a destructuring declaration contributes
its pattern text as the candidate name. -/
def stepVarRefactor (pat fp : String) (st : SState) : Decl → SState
  | .variableDecl nn =>
    if rxTest pat (bindingText nn) then
      addMatch fp { name := bindingText nn, line := nodeLine nn, col := nodeCol nn,
                    refCount := nodeRefCount nn } "variable" st
    else st
  | _ => st

/-- One file of the refactor-plugin `findSymbols` walk (no parameter
pass, variables via `getVariableDeclarations()`). -/
def processFileRefactor (pat : String) (st : SState) (sf : SrcFile) : SState :=
  if containsSub sf.path "node_modules" then st
  else
    let st1 := sf.decls.foldl (stepInterface pat sf.path) st
    let st2 := sf.decls.foldl (stepTypeAlias pat sf.path) st1
    let st3 := sf.decls.foldl (stepFunction pat sf.path) st2
    let st4 := sf.decls.foldl (stepVarRefactor pat sf.path) st3
    sf.decls.foldl (stepClass pat sf.path) st4

/-- `findSymbols` of the refactor plugin (part_003 lines 102-181). -/
def findSymbolsRefactor (proj : TsProject) (pat : String) : List SymbolMatch :=
  sortBy symLe (proj.foldl (processFileRefactor pat) ⟨[], []⟩).found

/-- The identifier nodes a declaration contributes (used to state project
well-formedness). -/
def declIdents : Decl → List SymNode
  | .interfaceDecl nm props => nm :: props
  | .typeAliasDecl nm => [nm]
  | .functionDecl (some nm) => [nm]
  | .functionDecl none => []
  | .classDecl (some nm) => [nm]
  | .classDecl none => []
  | .variableDecl nn => bindingIdents nn
  | .paramDecl nn => bindingIdents nn

/-- All identifier nodes of a project. -/
def projIdents (proj : TsProject) : List SymNode :=
  proj.flatMap (fun sf => sf.decls.flatMap declIdents)

/-- A TypeScript identifier contains no brace, bracket, comma or colon. -/
def identNameOk (n : String) : Bool :=
  n.toList.all (fun c => !(c == '{' || c == '}' || c == ',' || c == ':'))

/-- The name-binding node of a variable/parameter declaration, if any. -/
def declBinding : Decl → Option BindingNode
  | .variableDecl nn => some nn
  | .paramDecl nn => some nn
  | _ => none

/-- Invariant of the `findSymbols` traversal state: every recorded match
carries a TS-identifier name and a key built from its own name and some
position, and every seen key is the key of some recorded match. -/
def stInv (st : SState) : Prop :=
  (∀ m ∈ st.found, identNameOk m.name = true
     ∧ ∃ f l c, m.symbolKey = mkKey f l c m.name)
  ∧ (∀ k ∈ st.seen, ∃ m ∈ st.found, m.symbolKey = k)


/-! ## Concrete witness data -/

/-- Witness data: a three-ref, three-edit editset over two files. -/
def demoRef (i f : String) (sel : Bool) : Reference :=
  { refId := i, file := f, range := ⟨1, 1, 1, 2⟩, preview := "p", checksum := "c",
    selected := sel }

/-- Witness data: an editset with two refs in `f1` and one in `f2`. -/
def demoEditset : Editset :=
  { id := "es-1", operation := "rename", fromName := "vault", toName := "repo",
    refs := [demoRef "r1" "f1" true, demoRef "r2" "f1" true, demoRef "r3" "f2" true],
    edits := [⟨"f1", 10, 3, "x"⟩, ⟨"f1", 2, 3, "x"⟩, ⟨"f2", 0, 3, "x"⟩],
    createdAt := "t0" }

/-- Witness filesystem for C3: two files `a.ts` and `b.ts`. -/
def demoFS : FS :=
  fun p => if p = "a.ts" then some "A" else if p = "b.ts" then some "B" else none

/-- Witness editset for C3: `a.ts` drifted (recorded checksum `DRIFT`),
`b.ts` intact (recorded checksum `B` under the identity digest). -/
def demoFileEditset : FileEditset :=
  { id := "fe-1", operation := "file-rename", pattern := "a", replacement := "b",
    fileOps := [⟨"o1", "a.ts", "a2.ts", "DRIFT"⟩, ⟨"o2", "b.ts", "b2.ts", "B"⟩],
    createdAt := "t0" }

/-- Witness editset for the recheck-before-rename conjunct of C3: both
operations move `a.ts`, so the second sees it gone. -/
def demoFileEditset2 : FileEditset :=
  { id := "fe-2", operation := "file-rename", pattern := "a", replacement := "b",
    fileOps := [⟨"o1", "a.ts", "a2.ts", "A"⟩, ⟨"o2", "a.ts", "a3.ts", "A"⟩],
    createdAt := "t0" }

/-- The ref id a discovery run derives for one enumerated location. -/
def locRefId (hash : String → String) (l : Loc) : String :=
  computeRefId hash l.file l.startLine l.startCol l.endLine l.endCol

/-- Witness project for C5: one file with `const { vaultDir } = ...`. -/
def demoDestructuringProject : TsProject :=
  [{ path := "src/config.ts",
     decls := [.variableDecl (.objPattern ⟨1, 7⟩ [.ident ⟨"vaultDir", 1, 9, 3⟩])] }]

/-! # Theorems -/

/-! ## Generic helper lemmas -/

theorem asString_toList (s : String) : s.toList.asString = s := rfl

theorem lowerL_length (l : List Char) : (lowerL l).length = l.length := by
  simp [lowerL]

theorem lowerL_nil_iff (l : List Char) : lowerL l = [] ↔ l = [] := by
  cases l <;> simp [lowerL]

theorem replaceFirstFuel_whole (pat tok : List Char) (render : List Char → List Char)
    (hp : pat ≠ []) (h : lowerL tok = lowerL pat) :
    replaceFirstFuel pat render tok.length tok = render tok := by
  have hlen : pat.length = tok.length := by
    have hl := congrArg List.length h
    rw [lowerL_length, lowerL_length] at hl
    exact hl.symm
  cases tok with
  | nil =>
    exfalso
    apply hp
    apply (lowerL_nil_iff pat).mp
    simpa [lowerL] using h.symm
  | cons c rest =>
    have hguard : pat ≠ [] ∧ lowerL (List.take pat.length (c :: rest)) = lowerL pat := by
      refine ⟨hp, ?_⟩
      rw [hlen, List.take_length]
      exact h
    show replaceFirstFuel pat render (rest.length + 1) (c :: rest) = render (c :: rest)
    rw [replaceFirstFuel, if_pos hguard, hlen, List.take_length, List.drop_length,
      List.append_nil]

theorem replaceAllFuel_nil (pat : List Char) (render : List Char → List Char)
    (fuel : Nat) : replaceAllFuel pat render fuel [] = [] := by
  cases fuel <;> rw [replaceAllFuel]

theorem replaceAllFuel_whole (pat tok : List Char) (render : List Char → List Char)
    (hp : pat ≠ []) (h : lowerL tok = lowerL pat) :
    replaceAllFuel pat render tok.length tok = render tok := by
  have hlen : pat.length = tok.length := by
    have hl := congrArg List.length h
    rw [lowerL_length, lowerL_length] at hl
    exact hl.symm
  cases tok with
  | nil =>
    exfalso
    apply hp
    apply (lowerL_nil_iff pat).mp
    simpa [lowerL] using h.symm
  | cons c rest =>
    have hguard : pat ≠ [] ∧ lowerL (List.take pat.length (c :: rest)) = lowerL pat := by
      refine ⟨hp, ?_⟩
      rw [hlen, List.take_length]
      exact h
    show replaceAllFuel pat render (rest.length + 1) (c :: rest) = render (c :: rest)
    rw [replaceAllFuel, if_pos hguard, hlen, List.take_length, List.drop_length,
      replaceAllFuel_nil, List.append_nil]

/-! ## C1: case-preserving rename computation -/

/-- C1.  For every token matched (case-insensitively, in whole) by the
rename pattern and every replacement, `computeNewName` renders the
replacement by the three casing rules of §4.2: a fully-uppercase match of
length > 1 yields the replacement uppercased; otherwise an
uppercase-initial match yields the replacement with its first character
uppercased and the remainder as given; otherwise the replacement is
lowercased.  In particular the four inputs of the spec's case
preservation law with pattern `widget` → `gadget` produce exactly
`gadget`, `Gadget`, `GADGET`, `gadgetPath`. -/
theorem computeNewName_case_preservation :
    (∀ tok pat repl : String, pat.toList ≠ [] →
      lowerL tok.toList = lowerL pat.toList →
      computeNewName tok pat repl =
        if isUpperStr tok ∧ 1 < tok.length then upperStr repl
        else if firstUpper tok then capFirst repl
        else lowerStr repl)
    ∧ computeNewName "widget" "widget" "gadget" = "gadget"
    ∧ computeNewName "Widget" "widget" "gadget" = "Gadget"
    ∧ computeNewName "WIDGET" "widget" "gadget" = "GADGET"
    ∧ computeNewName "widgetPath" "widget" "gadget" = "gadgetPath" := by
  refine ⟨?_, by decide, by decide, by decide, by decide⟩
  intro tok pat repl hp h
  rw [computeNewName, replaceFirstFuel_whole _ _ _ hp h]
  simp only [caseCallbackL, isUpperStr, firstUpper, upperStr, capFirst, lowerStr,
    String.length, String.toList, beq_iff_eq]
  split_ifs <;> rfl

/-- Witness for C1 at the concrete input `Widget` / `widget` / `gadget`. -/
theorem computeNewName_case_preservation_witness :
    computeNewName "Widget" "widget" "gadget" =
      if isUpperStr "Widget" ∧ 1 < String.length "Widget" then upperStr "gadget"
      else if firstUpper "Widget" then capFirst "gadget"
      else lowerStr "gadget" :=
  computeNewName_case_preservation.1 "Widget" "widget" "gadget" (by decide) (by decide)

/-! ## C6: filename case preservation -/

/-- C6 counterexample.  §4.2's rules demand that the single-character,
fully-uppercase match `V` (length not > 1, first character uppercase) be
rendered `Repo`, giving `Repo.ts`; `applyReplacement` instead renders it
fully uppercase, giving `REPO.ts`. -/
theorem applyReplacement_case_counterexample :
    applyReplacement "V.ts" "v" "repo" = "REPO.ts"
    ∧ ((if isUpperStr "V" ∧ 1 < String.length "V" then upperStr "repo"
        else if firstUpper "V" then capFirst "repo"
        else lowerStr "repo") ++ ".ts") = "Repo.ts"
    ∧ applyReplacement "V.ts" "v" "repo" ≠ "Repo.ts" := by
  refine ⟨by decide, by decide, by decide⟩

/-- C6 as amended.  For every occurrence of the pattern matched
(case-insensitively) inside a filename, `applyReplacement` renders the
replacement fully uppercase when the entire match is uppercase (with no
length restriction, unlike `computeNewName`), renders it with the first
character uppercased when the match's first character is uppercase, and
otherwise leaves the replacement as given.  Stated for a whole-token
match, together with the multi-occurrence behaviour on the engine's own
test inputs. -/
theorem applyReplacement_case_rules :
    (∀ tok pat repl : String, pat.toList ≠ [] →
      lowerL tok.toList = lowerL pat.toList →
      applyReplacement tok pat repl =
        if isUpperStr tok then upperStr repl
        else if firstUpper tok then capFirst repl
        else repl)
    ∧ applyReplacement "vault-loader.ts" "vault" "repo" = "repo-loader.ts"
    ∧ applyReplacement "VaultConfig.ts" "vault" "repo" = "RepoConfig.ts"
    ∧ applyReplacement "VAULT_ROOT.ts" "vault" "repo" = "REPO_ROOT.ts"
    ∧ applyReplacement "vault-vault.ts" "vault" "repo" = "repo-repo.ts" := by
  refine ⟨?_, by decide, by decide, by decide, by decide⟩
  intro tok pat repl hp h
  rw [applyReplacement, replaceAllFuel_whole _ _ _ hp h]
  simp only [fileCaseCallbackL, isUpperStr, firstUpper, upperStr, capFirst,
    String.toList, beq_iff_eq]
  split_ifs <;> rfl

/-- Witness for the amended C6 at the concrete input `VAULT` / `vault` /
`repo`. -/
theorem applyReplacement_case_rules_witness :
    applyReplacement "VAULT" "vault" "repo" =
      if isUpperStr "VAULT" then upperStr "repo"
      else if firstUpper "VAULT" then capFirst "repo"
      else "repo" :=
  applyReplacement_case_rules.1 "VAULT" "vault" "repo" (by decide) (by decide)

/-! ## C2: descending-offset edit order -/

theorem mem_insertBy {le : α → α → Bool} {x y : α} {l : List α} :
    y ∈ insertBy le x l ↔ y = x ∨ y ∈ l := by
  induction l with
  | nil => simp [insertBy]
  | cons z zs ih =>
    by_cases h : le x z = true
    · simp [insertBy, h]
    · simp only [insertBy, if_neg h, List.mem_cons, ih]
      tauto

theorem pairwise_insertBy {le : α → α → Bool}
    (htot : ∀ a b, le a b = false → le b a = true)
    (htrans : ∀ a b c, le a b = true → le b c = true → le a c = true)
    {x : α} {l : List α} (h : List.Pairwise (fun a b => le a b = true) l) :
    List.Pairwise (fun a b => le a b = true) (insertBy le x l) := by
  induction l with
  | nil => simp [insertBy]
  | cons y ys ih =>
    rcases h with _ | ⟨hy, hys⟩
    by_cases hxy : le x y = true
    · rw [insertBy, if_pos hxy]
      refine List.Pairwise.cons ?_ (List.Pairwise.cons hy hys)
      intro z hz
      rcases List.mem_cons.mp hz with rfl | hz
      · exact hxy
      · exact htrans x y z hxy (hy z hz)
    · rw [insertBy, if_neg hxy]
      refine List.Pairwise.cons ?_ (ih hys)
      intro z hz
      rcases mem_insertBy.mp hz with hzx | hz
      · rw [hzx]
        exact htot x y (Bool.eq_false_iff.mpr hxy)
      · exact hy z hz

theorem mem_sortBy {le : α → α → Bool} {y : α} {l : List α} :
    y ∈ sortBy le l ↔ y ∈ l := by
  induction l with
  | nil => simp [sortBy]
  | cons z zs ih =>
    show y ∈ insertBy le z (sortBy le zs) ↔ _
    rw [mem_insertBy]
    simp [ih]

theorem pairwise_sortBy {le : α → α → Bool}
    (htot : ∀ a b, le a b = false → le b a = true)
    (htrans : ∀ a b c, le a b = true → le b c = true → le a c = true)
    (l : List α) : List.Pairwise (fun a b => le a b = true) (sortBy le l) := by
  induction l with
  | nil => simp [sortBy]
  | cons z zs ih => exact pairwise_insertBy htot htrans ih

theorem editLe_total (a b : Edit) : editLe a b = false → editLe b a = true := by
  rw [editLe, editLe]
  by_cases h : a.file = b.file
  · rw [if_pos h, if_pos h.symm]
    simp only [decide_eq_false_iff_not, decide_eq_true_eq, Nat.not_le]
    intro hlt
    exact Nat.le_of_lt hlt
  · rw [if_neg h, if_neg (fun e => h e.symm)]
    simp only [decide_eq_false_iff_not, decide_eq_true_eq, not_lt]
    intro hle
    exact lt_of_le_of_ne hle (fun e => h e.symm)

theorem editLe_trans (a b c : Edit) :
    editLe a b = true → editLe b c = true → editLe a c = true := by
  rw [editLe, editLe, editLe]
  by_cases hab : a.file = b.file
  · by_cases hbc : b.file = c.file
    · rw [if_pos hab, if_pos hbc, if_pos (hab.trans hbc)]
      simp only [decide_eq_true_eq]
      exact fun h1 h2 => Nat.le_trans h2 h1
    · rw [if_pos hab, if_neg hbc, if_neg (hab ▸ hbc)]
      exact fun _ h2 => by rw [hab]; exact h2
  · by_cases hbc : b.file = c.file
    · rw [if_neg hab, if_pos hbc, if_neg (hbc ▸ hab)]
      exact fun h1 _ => by rw [← hbc]; exact h1
    · rw [if_neg hab, if_neg hbc]
      simp only [decide_eq_true_eq]
      intro h1 h2
      have hac : a.file < c.file := lt_trans h1 h2
      rw [if_neg (ne_of_lt hac)]
      simpa using hac

theorem sortEdits_sorted (l : List Edit) :
    List.Pairwise (fun a b => editLe a b = true) (sortEdits l) :=
  pairwise_sortBy editLe_total editLe_trans l

theorem sortEdits_file_desc (l : List Edit) :
    List.Pairwise (fun a b : Edit => a.file = b.file → b.offset ≤ a.offset) (sortEdits l) := by
  refine (sortEdits_sorted l).imp ?_
  intro a b hle hf
  rw [editLe, if_pos hf] at hle
  simpa using hle

/-- C2.  Every proposal generator (single-symbol rename, batch rename,
text-pattern replace) emits its edit list sorted by file and, per file,
by descending offset: in each generated list, any two edits of the same
file appear with the later one at a lower-or-equal offset, so sequential
application never invalidates a later edit's offset. -/
theorem generators_descending_offset :
    (∀ (getFile : String → Option String) (refs : List Reference) (oldName newName : String),
      List.Pairwise (fun a b => editLe a b = true)
        (generateEditsFromRefs getFile refs oldName newName)
      ∧ List.Pairwise (fun a b : Edit => a.file = b.file → b.offset ≤ a.offset)
        (generateEditsFromRefs getFile refs oldName newName))
    ∧ (∀ (getFile : String → Option String) (getRefs : String → List Reference)
        (symbols : List SymbolMatch) (pat repl : String),
      List.Pairwise (fun a b => editLe a b = true)
        (generateBatchEdits getFile getRefs symbols pat repl)
      ∧ List.Pairwise (fun a b : Edit => a.file = b.file → b.offset ≤ a.offset)
        (generateBatchEdits getFile getRefs symbols pat repl))
    ∧ (∀ (getFile : String → Option String) (regexReplace : String → String)
        (refs : List Reference),
      List.Pairwise (fun a b => editLe a b = true)
        (generateEditsText getFile regexReplace refs)
      ∧ List.Pairwise (fun a b : Edit => a.file = b.file → b.offset ≤ a.offset)
        (generateEditsText getFile regexReplace refs)) := by
  refine ⟨fun getFile refs oldName newName => ⟨?_, ?_⟩,
    fun getFile getRefs symbols pat repl => ⟨?_, ?_⟩,
    fun getFile regexReplace refs => ⟨?_, ?_⟩⟩
  · exact sortEdits_sorted _
  · exact sortEdits_file_desc _
  · exact sortEdits_sorted _
  · exact sortEdits_file_desc _
  · exact sortEdits_sorted _
  · exact sortEdits_file_desc _

/-! ## C4, C8, C10: editset filtering -/

theorem contains_filter_map {α β : Type} [BEq β] [LawfulBEq β]
    (l : List α) (p : α → Bool) (f : α → β) (x : β) :
    ((l.filter p).map f).contains x = l.any (fun a => p a && (f a == x)) := by
  induction l with
  | nil => rfl
  | cons a as ih =>
    rw [List.filter_cons]
    by_cases h : p a = true
    · rw [if_pos h]
      simp only [List.map_cons, List.contains_cons, List.any_cons, h, Bool.true_and, ih,
        beq_iff_eq]
      rw [Bool.beq_comm]
    · rw [if_neg (by simpa using h)]
      have h' : p a = false := Bool.eq_false_iff.mpr h
      simp only [List.any_cons, h', Bool.false_and, Bool.false_or]
      exact ih

/-- C4.  `filterEditset` with a non-empty `include` list makes a ref's
selected flag exactly membership of its `refId` in the include set; a
non-empty `exclude` list is then subtracted; and the resulting edit list
is exactly the original edits whose file is the file of some selected
ref — file-grained, so any edit sharing a file with a selected ref is
kept. -/
theorem filterEditset_spec (es : Editset) (inc exc : List String)
    (hinc : inc ≠ []) (hexc : exc ≠ []) :
    (filterEditset es (some inc) (some exc)).refs =
      es.refs.map (fun r =>
        { r with selected := inc.contains r.refId && !(exc.contains r.refId) })
    ∧ (filterEditset es (some inc) (some exc)).edits =
      es.edits.filter (fun e =>
        (filterEditset es (some inc) (some exc)).refs.any
          (fun r => r.selected && (r.file == e.file)))
    ∧ ∀ e ∈ es.edits,
        (∃ r ∈ (filterEditset es (some inc) (some exc)).refs,
          r.selected = true ∧ r.file = e.file) →
        e ∈ (filterEditset es (some inc) (some exc)).edits := by
  have hinc' : inc.length > 0 := List.length_pos.mpr hinc
  have hexc' : exc.length > 0 := List.length_pos.mpr hexc
  have hrefs : (filterEditset es (some inc) (some exc)).refs =
      es.refs.map (fun r =>
        { r with selected := inc.contains r.refId && !(exc.contains r.refId) }) := by
    simp only [filterEditset, if_pos hinc', if_pos hexc', List.map_map]
    rfl
  have hedits : (filterEditset es (some inc) (some exc)).edits =
      es.edits.filter (fun e =>
        (filterEditset es (some inc) (some exc)).refs.any
          (fun r => r.selected && (r.file == e.file))) := by
    conv_lhs => simp only [filterEditset, if_pos hinc', if_pos hexc']
    refine List.filter_congr ?_
    intro e _
    rw [contains_filter_map]
    congr 1
    rw [List.map_map, hrefs]
    rfl
  refine ⟨hrefs, hedits, ?_⟩
  intro e he hex
  rw [hedits, List.mem_filter]
  refine ⟨he, ?_⟩
  rw [List.any_eq_true]
  rcases hex with ⟨r, hr, hsel, hfile⟩
  exact ⟨r, hr, by rw [hsel, hfile]; simp⟩



/-- Witness for C4 on `demoEditset` with include `[r1, r3]`, exclude `[r3]`. -/
theorem filterEditset_spec_witness :
    (filterEditset demoEditset (some ["r1", "r3"]) (some ["r3"])).refs =
      demoEditset.refs.map (fun r =>
        { r with selected := ["r1", "r3"].contains r.refId && !(["r3"].contains r.refId) })
    ∧ (filterEditset demoEditset (some ["r1", "r3"]) (some ["r3"])).edits =
      demoEditset.edits.filter (fun e =>
        (filterEditset demoEditset (some ["r1", "r3"]) (some ["r3"])).refs.any
          (fun r => r.selected && (r.file == e.file)))
    ∧ ∀ e ∈ demoEditset.edits,
        (∃ r ∈ (filterEditset demoEditset (some ["r1", "r3"]) (some ["r3"])).refs,
          r.selected = true ∧ r.file = e.file) →
        e ∈ (filterEditset demoEditset (some ["r1", "r3"]) (some ["r3"])).edits :=
  filterEditset_spec demoEditset ["r1", "r3"] ["r3"] (by decide) (by decide)

/-- C8.  Filtering is idempotent: applying the same include set twice
yields the same editset (same selection flags and same edit list) as
applying it once. -/
theorem filterEditset_idempotent (es : Editset) (inc : List String) :
    filterEditset (filterEditset es (some inc) none) (some inc) none =
      filterEditset es (some inc) none := by
  by_cases h : inc.length > 0
  · have hff : (fun r : Reference => { r with selected := inc.contains r.refId }) ∘
        (fun r : Reference => { r with selected := inc.contains r.refId }) =
        (fun r : Reference => { r with selected := inc.contains r.refId }) := rfl
    simp only [filterEditset, if_pos h, List.map_map, hff]
    rw [List.filter_filter]
    simp
  · simp only [filterEditset, if_neg h]
    rw [List.filter_filter]
    simp

/-- C10.  An include argument that is present but an empty list (and an
empty exclude list) behaves exactly like an omitted argument: every ref's
selected flag is left unchanged. -/
theorem filterEditset_empty_list_noop (es : Editset) :
    filterEditset es (some []) (some []) = filterEditset es none none
    ∧ (filterEditset es (some []) (some [])).refs = es.refs :=
  ⟨rfl, rfl⟩

/-! ## C3: applyFileRenames drift handling -/

theorem applyOps_counts (chk : String → String) (dryRun : Bool) (ops : List FileOp) :
    ∀ fs : FS,
      (applyOps chk dryRun ops fs).1.applied + (applyOps chk dryRun ops fs).1.skipped
        = ops.length
      ∧ (applyOps chk dryRun ops fs).1.errors.length = (applyOps chk dryRun ops fs).1.skipped := by
  induction ops with
  | nil => intro fs; simp [applyOps]
  | cons op ops ih =>
    intro fs
    rcases hfs : fs op.oldPath with _ | content
    · rw [applyOps, hfs]
      simp only [List.length_cons, List.length_nil]
      have := ih fs
      constructor
      · omega
      · simpa using this.2
    · rw [applyOps, hfs]
      simp only []
      by_cases hchk : chk content ≠ op.checksum
      · rw [if_pos hchk]
        simp only [List.length_cons]
        have := ih fs
        constructor
        · omega
        · simpa using this.2
      · rw [if_neg hchk]
        by_cases hdry : dryRun = true
        · rw [if_pos hdry]
          simp only [List.length_cons]
          have := ih fs
          constructor
          · omega
          · simpa using this.2
        · rw [if_neg hdry]
          simp only [List.length_cons]
          have := ih (renameFile fs op.oldPath op.newPath)
          constructor
          · omega
          · simpa using this.2

theorem applyOps_nil (chk : String → String) (d : Bool) (fs : FS) :
    applyOps chk d [] fs = (⟨0, 0, []⟩, fs) := rfl

theorem opPasses_none (chk : String → String) (fs : FS) (op : FileOp)
    (h : fs op.oldPath = none) : opPasses chk fs op = false := by
  rw [opPasses, h]

theorem opPasses_some (chk : String → String) (fs : FS) (op : FileOp) (c : String)
    (h : fs op.oldPath = some c) : opPasses chk fs op = (chk c == op.checksum) := by
  rw [opPasses, h]

theorem applyOps_cons_missing (chk : String → String) (d : Bool) (op : FileOp)
    (ops : List FileOp) (fs : FS) (h : fs op.oldPath = none) :
    applyOps chk d (op :: ops) fs =
      (⟨(applyOps chk d ops fs).1.applied, (applyOps chk d ops fs).1.skipped + 1,
        (op.oldPath ++ ": file no longer exists") :: (applyOps chk d ops fs).1.errors⟩,
       (applyOps chk d ops fs).2) := by
  rw [applyOps, h]

theorem applyOps_cons_drift (chk : String → String) (d : Bool) (op : FileOp)
    (ops : List FileOp) (fs : FS) (c : String) (h : fs op.oldPath = some c)
    (hne : chk c ≠ op.checksum) :
    applyOps chk d (op :: ops) fs =
      (⟨(applyOps chk d ops fs).1.applied, (applyOps chk d ops fs).1.skipped + 1,
        (op.oldPath ++ ": checksum mismatch, skipping") :: (applyOps chk d ops fs).1.errors⟩,
       (applyOps chk d ops fs).2) := by
  rw [applyOps, h]
  simp only []
  rw [if_pos hne]

theorem applyOps_cons_ok (chk : String → String) (op : FileOp)
    (ops : List FileOp) (fs : FS) (c : String) (h : fs op.oldPath = some c)
    (heq : ¬ chk c ≠ op.checksum) :
    applyOps chk false (op :: ops) fs =
      (⟨(applyOps chk false ops (renameFile fs op.oldPath op.newPath)).1.applied + 1,
        (applyOps chk false ops (renameFile fs op.oldPath op.newPath)).1.skipped,
        (applyOps chk false ops (renameFile fs op.oldPath op.newPath)).1.errors⟩,
       (applyOps chk false ops (renameFile fs op.oldPath op.newPath)).2) := by
  rw [applyOps, h]
  simp only []
  rw [if_neg heq, if_neg (by simp)]

/-- C3.  In non-dry-run mode `applyFileRenames` re-checks each
operation's file existence and content checksum immediately before its
rename: every operation is classified (applied + skipped = number of
operations — drift never aborts the call), every skipped operation
contributes exactly one reason string to `errors`, an operation that
fails the check leaves its own file unrenamed while the other operations
of the editset are still applied, and the check uses the filesystem state
at apply time — an operation whose file was just renamed away by an
earlier operation of the same editset is skipped even if its recorded
checksum matched at proposal time. -/
theorem applyFileRenames_drift_policy :
    (∀ (chk : String → String) (es : FileEditset) (fs : FS),
      (applyFileRenames chk es false fs).1.applied
        + (applyFileRenames chk es false fs).1.skipped = es.fileOps.length)
    ∧ (∀ (chk : String → String) (es : FileEditset) (fs : FS),
      (applyFileRenames chk es false fs).1.errors.length
        = (applyFileRenames chk es false fs).1.skipped)
    ∧ (∀ (chk : String → String) (es : FileEditset) (op1 op2 : FileOp) (fs : FS),
      es.fileOps = [op1, op2] →
      opPasses chk fs op1 = false → opPasses chk fs op2 = true →
      op2.oldPath ≠ op1.oldPath → op2.newPath ≠ op1.oldPath →
      (applyFileRenames chk es false fs).1.applied = 1
      ∧ (applyFileRenames chk es false fs).1.skipped = 1
      ∧ (applyFileRenames chk es false fs).1.errors.length = 1
      ∧ (applyFileRenames chk es false fs).2 op1.oldPath = fs op1.oldPath
      ∧ (applyFileRenames chk es false fs).2 op2.newPath = fs op2.oldPath)
    ∧ (∀ (chk : String → String) (es : FileEditset) (op1 op2 : FileOp) (fs : FS),
      es.fileOps = [op1, op2] →
      opPasses chk fs op1 = true → op2.oldPath = op1.oldPath →
      op1.newPath ≠ op1.oldPath →
      (applyFileRenames chk es false fs).1.applied = 1
      ∧ (applyFileRenames chk es false fs).1.skipped = 1) := by
  refine ⟨fun chk es fs => (applyOps_counts chk false es.fileOps fs).1,
    fun chk es fs => (applyOps_counts chk false es.fileOps fs).2, ?_, ?_⟩
  · intro chk es op1 op2 fs hops hfail hpass hne1 hne2
    rw [applyFileRenames, hops]
    rcases hp2 : fs op2.oldPath with _ | c2
    · rw [opPasses_none chk fs op2 hp2] at hpass
      exact absurd hpass (by simp)
    · rw [opPasses_some chk fs op2 c2 hp2] at hpass
      have hc2 : ¬ chk c2 ≠ op2.checksum := by
        intro hn
        exact hn (by simpa using hpass)
      have hkeep : renameFile fs op2.oldPath op2.newPath op1.oldPath = fs op1.oldPath := by
        simp only [renameFile]
        rw [if_neg (fun e => hne2 e.symm), if_neg (fun e => hne1 e.symm)]
      have hmoved : renameFile fs op2.oldPath op2.newPath op2.newPath = fs op2.oldPath := by
        simp [renameFile]
      rcases hp1 : fs op1.oldPath with _ | c1
      · rw [applyOps_cons_missing chk false op1 [op2] fs hp1,
          applyOps_cons_ok chk op2 [] fs c2 hp2 hc2, applyOps_nil]
        exact ⟨rfl, rfl, rfl, hkeep.trans hp1, hmoved.trans hp2⟩
      · rw [opPasses_some chk fs op1 c1 hp1] at hfail
        have hc1 : chk c1 ≠ op1.checksum := by
          simpa using hfail
        rw [applyOps_cons_drift chk false op1 [op2] fs c1 hp1 hc1,
          applyOps_cons_ok chk op2 [] fs c2 hp2 hc2, applyOps_nil]
        exact ⟨rfl, rfl, rfl, hkeep.trans hp1, hmoved.trans hp2⟩
  · intro chk es op1 op2 fs hops hpass hsame hnew
    rw [applyFileRenames, hops]
    rcases hp1 : fs op1.oldPath with _ | c1
    · rw [opPasses_none chk fs op1 hp1] at hpass
      exact absurd hpass (by simp)
    · rw [opPasses_some chk fs op1 c1 hp1] at hpass
      have hc1 : ¬ chk c1 ≠ op1.checksum := by
        intro hn
        exact hn (by simpa using hpass)
      have hgone : renameFile fs op1.oldPath op1.newPath op2.oldPath = none := by
        simp only [renameFile]
        rw [hsame, if_neg (fun e => hnew e.symm), if_pos rfl]
      rw [applyOps_cons_ok chk op1 [op2] fs c1 hp1 hc1,
        applyOps_cons_missing chk false op2 [] _ hgone, applyOps_nil]
      exact ⟨rfl, rfl⟩



/-- Witness for C3 on the concrete two-file editsets under the identity
digest. -/
theorem applyFileRenames_drift_policy_witness :
    ((applyFileRenames (fun s => s) demoFileEditset false demoFS).1.applied
        + (applyFileRenames (fun s => s) demoFileEditset false demoFS).1.skipped
        = demoFileEditset.fileOps.length)
    ∧ ((applyFileRenames (fun s => s) demoFileEditset false demoFS).1.applied = 1
        ∧ (applyFileRenames (fun s => s) demoFileEditset false demoFS).1.skipped = 1
        ∧ (applyFileRenames (fun s => s) demoFileEditset false demoFS).1.errors.length = 1
        ∧ (applyFileRenames (fun s => s) demoFileEditset false demoFS).2 "a.ts"
            = demoFS "a.ts"
        ∧ (applyFileRenames (fun s => s) demoFileEditset false demoFS).2 "b2.ts"
            = demoFS "b.ts")
    ∧ ((applyFileRenames (fun s => s) demoFileEditset2 false demoFS).1.applied = 1
        ∧ (applyFileRenames (fun s => s) demoFileEditset2 false demoFS).1.skipped = 1) :=
  ⟨applyFileRenames_drift_policy.1 (fun s => s) demoFileEditset demoFS,
   applyFileRenames_drift_policy.2.2.1 (fun s => s) demoFileEditset
     ⟨"o1", "a.ts", "a2.ts", "DRIFT"⟩ ⟨"o2", "b.ts", "b2.ts", "B"⟩ demoFS rfl
     (by decide) (by decide) (by decide) (by decide),
   applyFileRenames_drift_policy.2.2.2 (fun s => s) demoFileEditset2
     ⟨"o1", "a.ts", "a2.ts", "A"⟩ ⟨"o2", "a.ts", "a3.ts", "A"⟩ demoFS rfl
     (by decide) (by decide) (by decide)⟩

/-! ## C7: zero matches vs missing ripgrep -/

/-- C7.  In the text-pattern backend an `rg` exit with status 1 (zero
matches) is a normal success with an empty reference list (both at
`runRg` and through `findPatterns`), while a spawn failure whose message
contains `ENOENT` raises the distinct error that names ripgrep and
instructs installation; a missing executable can never produce the
empty-success outcome. -/
theorem runRg_zero_matches_vs_missing_tool :
    (∀ e : ExecFailure, e.status = some 1 → runRg (.error e) = .ok [])
    ∧ (∀ (chk hash : String → String) (getFile : String → Option String)
        (pat : String) (e : ExecFailure),
        e.status = some 1 →
        findPatterns chk hash getFile pat (.error e) = .ok [])
    ∧ (∀ e : ExecFailure, e.status ≠ some 1 → containsSub e.message "ENOENT" = true →
        runRg (.error e) = .error rgMissingMsg
        ∧ containsSub rgMissingMsg "ripgrep" = true
        ∧ containsSub rgMissingMsg "Install" = true)
    ∧ (∀ (e : ExecFailure) (l : List RgMatch),
        e.status ≠ some 1 → containsSub e.message "ENOENT" = true →
        runRg (.error e) ≠ .ok l) := by
  have hmiss : ∀ e : ExecFailure, e.status ≠ some 1 → containsSub e.message "ENOENT" = true →
      runRg (.error e) = .error rgMissingMsg := by
    intro e hs hm
    rw [runRg, if_neg (by simpa using hs)]
    rw [if_pos (by rw [hm]; rfl)]
  refine ⟨?_, ?_, ?_, ?_⟩
  · intro e hs
    rw [runRg, if_pos (by rw [hs]; rfl)]
  · intro chk hash getFile pat e hs
    rw [findPatterns, runRg, if_pos (by rw [hs]; rfl)]
    rfl
  · intro e hs hm
    exact ⟨hmiss e hs hm, by decide, by decide⟩
  · intro e l hs hm
    rw [hmiss e hs hm]
    exact fun h => Except.noConfusion h

/-- Witness for C7: a status-1 failure and an `ENOENT` spawn failure. -/
theorem runRg_zero_matches_vs_missing_tool_witness :
    runRg (.error ⟨some 1, "exit 1"⟩) = .ok []
    ∧ findPatterns (fun s => s) (fun s => s) (fun _ => none) "vault"
        (.error ⟨some 1, "exit 1"⟩) = .ok []
    ∧ (runRg (.error ⟨none, "spawnSync rg ENOENT"⟩) = .error rgMissingMsg
        ∧ containsSub rgMissingMsg "ripgrep" = true
        ∧ containsSub rgMissingMsg "Install" = true)
    ∧ runRg (.error ⟨none, "spawnSync rg ENOENT"⟩) ≠ .ok [] :=
  ⟨runRg_zero_matches_vs_missing_tool.1 ⟨some 1, "exit 1"⟩ rfl,
   runRg_zero_matches_vs_missing_tool.2.1 (fun s => s) (fun s => s) (fun _ => none)
     "vault" ⟨some 1, "exit 1"⟩ rfl,
   runRg_zero_matches_vs_missing_tool.2.2.1 ⟨none, "spawnSync rg ENOENT"⟩
     (by decide) (by decide),
   runRg_zero_matches_vs_missing_tool.2.2.2 ⟨none, "spawnSync rg ENOENT"⟩ []
     (by decide) (by decide)⟩

/-! ## C9: ref-id stability and order independence -/



/-- C9.  `computeRefId` is a function of the location tuple alone: two
discovery runs that enumerate the same locations — in any order — derive
the same multiset of ref ids, and any two occurrences of the same tuple
receive the identical id. -/
theorem computeRefId_order_independent (hash : String → String)
    (run1 run2 : List Loc) (h : run1.Perm run2) :
    (run1.map (locRefId hash)).Perm (run2.map (locRefId hash))
    ∧ ∀ l1 l2 : Loc, l1 = l2 →
        computeRefId hash l1.file l1.startLine l1.startCol l1.endLine l1.endCol
          = computeRefId hash l2.file l2.startLine l2.startCol l2.endLine l2.endCol :=
  ⟨h.map (locRefId hash), fun l1 l2 hl => by rw [hl]⟩

/-- Witness for C9: two two-element runs in swapped order, under the
identity digest. -/
theorem computeRefId_order_independent_witness :
    (([⟨"a.ts", 1, 2, 1, 5⟩, ⟨"b.ts", 3, 1, 3, 4⟩] :
        List Loc).map (locRefId (fun s => s))).Perm
      (([⟨"b.ts", 3, 1, 3, 4⟩, ⟨"a.ts", 1, 2, 1, 5⟩] :
        List Loc).map (locRefId (fun s => s)))
    ∧ ∀ l1 l2 : Loc, l1 = l2 →
        computeRefId (fun s => s) l1.file l1.startLine l1.startCol l1.endLine l1.endCol
          = computeRefId (fun s => s) l2.file l2.startLine l2.startCol l2.endLine l2.endCol :=
  computeRefId_order_independent (fun s => s)
    [⟨"a.ts", 1, 2, 1, 5⟩, ⟨"b.ts", 3, 1, 3, 4⟩]
    [⟨"b.ts", 3, 1, 3, 4⟩, ⟨"a.ts", 1, 2, 1, 5⟩]
    (List.Perm.swap _ _ _)

/-! ## C5: destructuring-aware symbol discovery -/

theorem sep_suffix_eq {α : Type} (a : α) :
    ∀ (p1 p2 t1 t2 : List α), a ∉ t1 → a ∉ t2 →
      p1 ++ a :: t1 = p2 ++ a :: t2 → t1 = t2 := by
  intro p1
  induction p1 with
  | nil =>
    intro p2 t1 t2 h1 h2 h
    cases p2 with
    | nil => simpa using h
    | cons b bs =>
      simp only [List.nil_append, List.cons_append, List.cons.injEq] at h
      exfalso
      apply h1
      rw [h.2]
      exact List.mem_append_right bs (List.mem_cons_self a t2)
  | cons b bs ih =>
    intro p2 t1 t2 h1 h2 h
    cases p2 with
    | nil =>
      simp only [List.nil_append, List.cons_append, List.cons.injEq] at h
      exfalso
      apply h2
      rw [← h.2]
      exact List.mem_append_right bs (List.mem_cons_self a t1)
    | cons c cs =>
      simp only [List.cons_append, List.cons.injEq] at h
      exact ih cs t1 t2 h1 h2 h.2

theorem data_append (s t : String) : (s ++ t).data = s.data ++ t.data := rfl

theorem identNameOk_no_colon {n : String} (h : identNameOk n = true) : ':' ∉ n.data := by
  intro hc
  have h' := List.all_eq_true.mp h ':' hc
  simp at h'

theorem string_data_inj {s t : String} (h : s.data = t.data) : s = t := by
  cases s
  cases t
  exact congrArg String.mk h

theorem mkKey_name_eq {f1 f2 : String} {l1 c1 l2 c2 : Nat} {n1 n2 : String}
    (h1 : identNameOk n1 = true) (h2 : identNameOk n2 = true)
    (h : mkKey f1 l1 c1 n1 = mkKey f2 l2 c2 n2) : n1 = n2 := by
  have hd := congrArg String.data h
  have hcolon : (":" : String).data = [':'] := rfl
  have hl : (f1.data ++ [':'] ++ (toString l1).data ++ [':'] ++ (toString c1).data)
        ++ ':' :: n1.data
      = (f2.data ++ [':'] ++ (toString l2).data ++ [':'] ++ (toString c2).data)
        ++ ':' :: n2.data := by
    simpa [mkKey, data_append, hcolon, List.append_assoc] using hd
  exact string_data_inj
    (sep_suffix_eq ':' _ _ _ _ (identNameOk_no_colon h1) (identNameOk_no_colon h2) hl)

theorem addMatch_found_mono (fp : String) (s : SymNode) (kind : String) (st : SState)
    (m : SymbolMatch) (hm : m ∈ st.found) : m ∈ (addMatch fp s kind st).found := by
  simp only [addMatch]
  by_cases hc : st.seen.contains (mkKey fp s.line s.col s.name) = true
  · rw [if_pos hc]
    exact hm
  · rw [if_neg hc]
    exact List.mem_append_left _ hm

theorem addMatch_inv (fp : String) (s : SymNode) (kind : String) (st : SState)
    (hok : identNameOk s.name = true) (h : stInv st) : stInv (addMatch fp s kind st) := by
  simp only [addMatch]
  by_cases hc : st.seen.contains (mkKey fp s.line s.col s.name) = true
  · rw [if_pos hc]
    exact h
  · rw [if_neg hc]
    constructor
    · intro m hm
      rcases List.mem_append.mp hm with hm | hm
      · exact h.1 m hm
      · rw [List.mem_singleton.mp hm]
        exact ⟨hok, fp, s.line, s.col, rfl⟩
    · intro k hk
      rcases List.mem_cons.mp hk with rfl | hk
      · exact ⟨mkMatch fp s kind,
          List.mem_append_right _ (List.mem_singleton_self _), rfl⟩
      · rcases h.2 k hk with ⟨m, hm, hkey⟩
        exact ⟨m, List.mem_append_left _ hm, hkey⟩

theorem addMatch_name_reported (fp : String) (s : SymNode) (kind : String) (st : SState)
    (hok : identNameOk s.name = true) (h : stInv st) :
    ∃ m ∈ (addMatch fp s kind st).found, m.name = s.name := by
  simp only [addMatch]
  by_cases hc : st.seen.contains (mkKey fp s.line s.col s.name) = true
  · rw [if_pos hc]
    have hkmem : mkKey fp s.line s.col s.name ∈ st.seen := by
      simpa using hc
    rcases h.2 _ hkmem with ⟨m, hm, hkey⟩
    rcases h.1 m hm with ⟨hmok, f, l, c, hkey2⟩
    exact ⟨m, hm, mkKey_name_eq hmok hok (hkey2.symm.trans hkey)⟩
  · rw [if_neg hc]
    exact ⟨mkMatch fp s kind,
      List.mem_append_right _ (List.mem_singleton_self _), rfl⟩

theorem foldl_pres {β : Type} (P : SState → Prop) (f : SState → β → SState) :
    ∀ (l : List β) (st : SState),
      (∀ st b, b ∈ l → P st → P (f st b)) → P st → P (l.foldl f st) := by
  intro l
  induction l with
  | nil => intro st _ h0; exact h0
  | cons b bs ih =>
    intro st hf h0
    rw [List.foldl_cons]
    exact ih (f st b) (fun st' b' hb' => hf st' b' (List.mem_cons_of_mem _ hb'))
      (hf st b (List.mem_cons_self _ _) h0)

theorem foldl_reach {β : Type} (P Q : SState → Prop) (f : SState → β → SState)
    (hQ : ∀ st b, Q st → Q (f st b)) :
    ∀ (l : List β) (st : SState) (x : β), x ∈ l →
      (∀ st b, b ∈ l → P st → P (f st b)) →
      (∀ st, P st → Q (f st x)) →
      P st → Q (l.foldl f st) := by
  intro l
  induction l with
  | nil =>
    intro st x hx
    cases hx
  | cons b bs ih =>
    intro st x hx hP hest hP0
    rw [List.foldl_cons]
    rcases List.mem_cons.mp hx with rfl | hx
    · exact foldl_pres Q f bs (f st x) (fun st' b' _ h => hQ st' b' h) (hest st hP0)
    · exact ih (f st b) x hx (fun st' b' hb' => hP st' b' (List.mem_cons_of_mem _ hb'))
        hest (hP st b (List.mem_cons_self _ _) hP0)

theorem testAdd_inv (pat fp kind : String) (i : SymNode) (st : SState)
    (hok : identNameOk i.name = true) (h : stInv st) :
    stInv (if rxTest pat i.name then addMatch fp i kind st else st) := by
  by_cases ht : rxTest pat i.name = true
  · rw [if_pos ht]
    exact addMatch_inv fp i kind st hok h
  · rw [if_neg ht]
    exact h

theorem testAdd_mono (pat fp kind : String) (i : SymNode) (st : SState)
    (m : SymbolMatch) (hm : m ∈ st.found) :
    m ∈ (if rxTest pat i.name then addMatch fp i kind st else st).found := by
  by_cases ht : rxTest pat i.name = true
  · rw [if_pos ht]
    exact addMatch_found_mono fp i kind st m hm
  · rw [if_neg ht]
    exact hm

theorem stepInterface_inv (pat fp : String) (d : Decl) (st : SState)
    (hok : ∀ x ∈ declIdents d, identNameOk x.name = true) (h : stInv st) :
    stInv (stepInterface pat fp st d) := by
  cases d with
  | interfaceDecl nm props =>
    exact foldl_pres stInv _ props _
      (fun st' p hp hst =>
        testAdd_inv pat fp "property" p st' (hok p (List.mem_cons_of_mem _ hp)) hst)
      (testAdd_inv pat fp "interface" nm st (hok nm (List.mem_cons_self _ _)) h)
  | typeAliasDecl nm => exact h
  | functionDecl o => exact h
  | classDecl o => exact h
  | variableDecl nn => exact h
  | paramDecl nn => exact h

theorem stepInterface_mono (pat fp : String) (d : Decl) (st : SState)
    (m : SymbolMatch) (hm : m ∈ st.found) : m ∈ (stepInterface pat fp st d).found := by
  cases d with
  | interfaceDecl nm props =>
    exact foldl_pres (fun st => m ∈ st.found) _ props _
      (fun st' p _ h => testAdd_mono pat fp "property" p st' m h)
      (testAdd_mono pat fp "interface" nm st m hm)
  | typeAliasDecl nm => exact hm
  | functionDecl o => exact hm
  | classDecl o => exact hm
  | variableDecl nn => exact hm
  | paramDecl nn => exact hm

theorem stepTypeAlias_inv (pat fp : String) (d : Decl) (st : SState)
    (hok : ∀ x ∈ declIdents d, identNameOk x.name = true) (h : stInv st) :
    stInv (stepTypeAlias pat fp st d) := by
  cases d with
  | typeAliasDecl nm =>
    exact testAdd_inv pat fp "type" nm st (hok nm (List.mem_singleton_self _)) h
  | interfaceDecl nm props => exact h
  | functionDecl o => exact h
  | classDecl o => exact h
  | variableDecl nn => exact h
  | paramDecl nn => exact h

theorem stepTypeAlias_mono (pat fp : String) (d : Decl) (st : SState)
    (m : SymbolMatch) (hm : m ∈ st.found) : m ∈ (stepTypeAlias pat fp st d).found := by
  cases d with
  | typeAliasDecl nm => exact testAdd_mono pat fp "type" nm st m hm
  | interfaceDecl nm props => exact hm
  | functionDecl o => exact hm
  | classDecl o => exact hm
  | variableDecl nn => exact hm
  | paramDecl nn => exact hm

theorem stepFunction_inv (pat fp : String) (d : Decl) (st : SState)
    (hok : ∀ x ∈ declIdents d, identNameOk x.name = true) (h : stInv st) :
    stInv (stepFunction pat fp st d) := by
  cases d with
  | functionDecl o =>
    cases o with
    | none => exact h
    | some nm =>
      exact testAdd_inv pat fp "function" nm st (hok nm (List.mem_singleton_self _)) h
  | interfaceDecl nm props => exact h
  | typeAliasDecl nm => exact h
  | classDecl o => exact h
  | variableDecl nn => exact h
  | paramDecl nn => exact h

theorem stepFunction_mono (pat fp : String) (d : Decl) (st : SState)
    (m : SymbolMatch) (hm : m ∈ st.found) : m ∈ (stepFunction pat fp st d).found := by
  cases d with
  | functionDecl o =>
    cases o with
    | none => exact hm
    | some nm => exact testAdd_mono pat fp "function" nm st m hm
  | interfaceDecl nm props => exact hm
  | typeAliasDecl nm => exact hm
  | classDecl o => exact hm
  | variableDecl nn => exact hm
  | paramDecl nn => exact hm

theorem stepClass_inv (pat fp : String) (d : Decl) (st : SState)
    (hok : ∀ x ∈ declIdents d, identNameOk x.name = true) (h : stInv st) :
    stInv (stepClass pat fp st d) := by
  cases d with
  | classDecl o =>
    cases o with
    | none => exact h
    | some nm =>
      exact testAdd_inv pat fp "class" nm st (hok nm (List.mem_singleton_self _)) h
  | interfaceDecl nm props => exact h
  | typeAliasDecl nm => exact h
  | functionDecl o => exact h
  | variableDecl nn => exact h
  | paramDecl nn => exact h

theorem stepClass_mono (pat fp : String) (d : Decl) (st : SState)
    (m : SymbolMatch) (hm : m ∈ st.found) : m ∈ (stepClass pat fp st d).found := by
  cases d with
  | classDecl o =>
    cases o with
    | none => exact hm
    | some nm => exact testAdd_mono pat fp "class" nm st m hm
  | interfaceDecl nm props => exact hm
  | typeAliasDecl nm => exact hm
  | functionDecl o => exact hm
  | variableDecl nn => exact hm
  | paramDecl nn => exact hm

theorem bindingMatches_inv (pat fp kind : String) (nn : BindingNode) (st : SState)
    (hok : ∀ x ∈ bindingIdents nn, identNameOk x.name = true) (h : stInv st) :
    stInv (bindingMatches pat fp kind nn st) := by
  cases nn with
  | ident s0 =>
    exact testAdd_inv pat fp kind s0 st (hok s0 (by simp [bindingIdents])) h
  | objPattern meta es =>
    exact foldl_pres stInv _ (bindingIdentsList es) st
      (fun st' i hi hst =>
        testAdd_inv pat fp "variable" i st' (hok i (by simpa [bindingIdents] using hi)) hst) h
  | arrPattern meta es =>
    exact foldl_pres stInv _ (bindingIdentsList es) st
      (fun st' i hi hst =>
        testAdd_inv pat fp "variable" i st' (hok i (by simpa [bindingIdents] using hi)) hst) h

theorem bindingMatches_mono (pat fp kind : String) (nn : BindingNode) (st : SState)
    (m : SymbolMatch) (hm : m ∈ st.found) :
    m ∈ (bindingMatches pat fp kind nn st).found := by
  cases nn with
  | ident s0 => exact testAdd_mono pat fp kind s0 st m hm
  | objPattern meta es =>
    exact foldl_pres (fun st => m ∈ st.found) _ (bindingIdentsList es) st
      (fun st' i _ h => testAdd_mono pat fp "variable" i st' m h) hm
  | arrPattern meta es =>
    exact foldl_pres (fun st => m ∈ st.found) _ (bindingIdentsList es) st
      (fun st' i _ h => testAdd_mono pat fp "variable" i st' m h) hm

theorem bindingMatches_reports (pat fp kind : String) (nn : BindingNode) (st : SState)
    (hok : ∀ x ∈ bindingIdents nn, identNameOk x.name = true)
    (s : SymNode) (hs : s ∈ bindingIdents nn) (ht : rxTest pat s.name = true)
    (h : stInv st) :
    ∃ m ∈ (bindingMatches pat fp kind nn st).found, m.name = s.name := by
  cases nn with
  | ident s0 =>
    have hss : s = s0 := by simpa [bindingIdents] using hs
    subst hss
    show ∃ m ∈ (if rxTest pat s.name then addMatch fp s kind st else st).found,
      m.name = s.name
    rw [if_pos ht]
    exact addMatch_name_reported fp s kind st (hok s (by simp [bindingIdents])) h
  | objPattern meta es =>
    have hs' : s ∈ bindingIdentsList es := by simpa [bindingIdents] using hs
    refine foldl_reach stInv (fun st => ∃ m ∈ st.found, m.name = s.name)
      (fun st' i => if rxTest pat i.name then addMatch fp i "variable" st' else st')
      (fun st' i hq => match hq with
        | ⟨m, hm, hn⟩ => ⟨m, testAdd_mono pat fp "variable" i st' m hm, hn⟩)
      (bindingIdentsList es) st s hs'
      (fun st' i hi hst =>
        testAdd_inv pat fp "variable" i st' (hok i (by simpa [bindingIdents] using hi)) hst)
      (fun st' hst => ?_) h
    show ∃ m ∈ (if rxTest pat s.name then addMatch fp s "variable" st' else st').found,
      m.name = s.name
    rw [if_pos ht]
    exact addMatch_name_reported fp s "variable" st' (hok s hs) hst
  | arrPattern meta es =>
    have hs' : s ∈ bindingIdentsList es := by simpa [bindingIdents] using hs
    refine foldl_reach stInv (fun st => ∃ m ∈ st.found, m.name = s.name)
      (fun st' i => if rxTest pat i.name then addMatch fp i "variable" st' else st')
      (fun st' i hq => match hq with
        | ⟨m, hm, hn⟩ => ⟨m, testAdd_mono pat fp "variable" i st' m hm, hn⟩)
      (bindingIdentsList es) st s hs'
      (fun st' i hi hst =>
        testAdd_inv pat fp "variable" i st' (hok i (by simpa [bindingIdents] using hi)) hst)
      (fun st' hst => ?_) h
    show ∃ m ∈ (if rxTest pat s.name then addMatch fp s "variable" st' else st').found,
      m.name = s.name
    rw [if_pos ht]
    exact addMatch_name_reported fp s "variable" st' (hok s hs) hst

theorem stepVarParam_inv (pat fp : String) (d : Decl) (st : SState)
    (hok : ∀ x ∈ declIdents d, identNameOk x.name = true) (h : stInv st) :
    stInv (stepVarParam pat fp st d) := by
  cases d with
  | variableDecl nn => exact bindingMatches_inv pat fp "variable" nn st hok h
  | paramDecl nn => exact bindingMatches_inv pat fp "parameter" nn st hok h
  | interfaceDecl nm props => exact h
  | typeAliasDecl nm => exact h
  | functionDecl o => exact h
  | classDecl o => exact h

theorem stepVarParam_mono (pat fp : String) (d : Decl) (st : SState)
    (m : SymbolMatch) (hm : m ∈ st.found) : m ∈ (stepVarParam pat fp st d).found := by
  cases d with
  | variableDecl nn => exact bindingMatches_mono pat fp "variable" nn st m hm
  | paramDecl nn => exact bindingMatches_mono pat fp "parameter" nn st m hm
  | interfaceDecl nm props => exact hm
  | typeAliasDecl nm => exact hm
  | functionDecl o => exact hm
  | classDecl o => exact hm

theorem stepVarParam_reports (pat fp : String) (d : Decl) (nn : BindingNode)
    (hnn : declBinding d = some nn) (s : SymNode) (hs : s ∈ bindingIdents nn)
    (ht : rxTest pat s.name = true) (st : SState)
    (hok : ∀ x ∈ declIdents d, identNameOk x.name = true) (h : stInv st) :
    ∃ m ∈ (stepVarParam pat fp st d).found, m.name = s.name := by
  cases d with
  | variableDecl nn' =>
    have he : nn' = nn := by simpa [declBinding] using hnn
    subst he
    exact bindingMatches_reports pat fp "variable" nn' st hok s hs ht h
  | paramDecl nn' =>
    have he : nn' = nn := by simpa [declBinding] using hnn
    subst he
    exact bindingMatches_reports pat fp "parameter" nn' st hok s hs ht h
  | interfaceDecl nm props => simp [declBinding] at hnn
  | typeAliasDecl nm => simp [declBinding] at hnn
  | functionDecl o => simp [declBinding] at hnn
  | classDecl o => simp [declBinding] at hnn

theorem processFileBatch_inv (pat : String) (sf : SrcFile) (st : SState)
    (hok : ∀ x ∈ sf.decls.flatMap declIdents, identNameOk x.name = true)
    (h : stInv st) : stInv (processFileBatch pat st sf) := by
  have hdecl : ∀ d ∈ sf.decls, ∀ x ∈ declIdents d, identNameOk x.name = true :=
    fun d hd x hx => hok x (List.mem_flatMap.mpr ⟨d, hd, hx⟩)
  rw [processFileBatch]
  by_cases hmod : containsSub sf.path "node_modules" = true
  · rw [if_pos hmod]
    exact h
  · rw [if_neg hmod]
    exact foldl_pres stInv (stepClass pat sf.path) sf.decls _
      (fun st' d hd hst => stepClass_inv pat sf.path d st' (hdecl d hd) hst)
      (foldl_pres stInv (stepVarParam pat sf.path) sf.decls _
        (fun st' d hd hst => stepVarParam_inv pat sf.path d st' (hdecl d hd) hst)
        (foldl_pres stInv (stepFunction pat sf.path) sf.decls _
          (fun st' d hd hst => stepFunction_inv pat sf.path d st' (hdecl d hd) hst)
          (foldl_pres stInv (stepTypeAlias pat sf.path) sf.decls _
            (fun st' d hd hst => stepTypeAlias_inv pat sf.path d st' (hdecl d hd) hst)
            (foldl_pres stInv (stepInterface pat sf.path) sf.decls _
              (fun st' d hd hst => stepInterface_inv pat sf.path d st' (hdecl d hd) hst)
              h))))

theorem processFileBatch_mono (pat : String) (sf : SrcFile) (st : SState)
    (m : SymbolMatch) (hm : m ∈ st.found) : m ∈ (processFileBatch pat st sf).found := by
  rw [processFileBatch]
  by_cases hmod : containsSub sf.path "node_modules" = true
  · rw [if_pos hmod]
    exact hm
  · rw [if_neg hmod]
    exact foldl_pres (fun st => m ∈ st.found) (stepClass pat sf.path) sf.decls _
      (fun st' d _ h => stepClass_mono pat sf.path d st' m h)
      (foldl_pres (fun st => m ∈ st.found) (stepVarParam pat sf.path) sf.decls _
        (fun st' d _ h => stepVarParam_mono pat sf.path d st' m h)
        (foldl_pres (fun st => m ∈ st.found) (stepFunction pat sf.path) sf.decls _
          (fun st' d _ h => stepFunction_mono pat sf.path d st' m h)
          (foldl_pres (fun st => m ∈ st.found) (stepTypeAlias pat sf.path) sf.decls _
            (fun st' d _ h => stepTypeAlias_mono pat sf.path d st' m h)
            (foldl_pres (fun st => m ∈ st.found) (stepInterface pat sf.path) sf.decls _
              (fun st' d _ h => stepInterface_mono pat sf.path d st' m h)
              hm))))

theorem processFileBatch_reports (pat : String) (sf : SrcFile) (st : SState)
    (hmod : containsSub sf.path "node_modules" = false)
    (hok : ∀ x ∈ sf.decls.flatMap declIdents, identNameOk x.name = true)
    (d : Decl) (hd : d ∈ sf.decls) (nn : BindingNode) (hnn : declBinding d = some nn)
    (s : SymNode) (hs : s ∈ bindingIdents nn) (ht : rxTest pat s.name = true)
    (h : stInv st) :
    ∃ m ∈ (processFileBatch pat st sf).found, m.name = s.name := by
  have hdecl : ∀ d' ∈ sf.decls, ∀ x ∈ declIdents d', identNameOk x.name = true :=
    fun d' hd' x hx => hok x (List.mem_flatMap.mpr ⟨d', hd', hx⟩)
  rw [processFileBatch, if_neg (by rw [hmod]; simp)]
  refine foldl_pres (fun st => ∃ m ∈ st.found, m.name = s.name) (stepClass pat sf.path)
    sf.decls _
    (fun st' d' _ hq => match hq with
      | ⟨m, hm, hn⟩ => ⟨m, stepClass_mono pat sf.path d' st' m hm, hn⟩) ?_
  refine foldl_reach stInv (fun st => ∃ m ∈ st.found, m.name = s.name)
    (stepVarParam pat sf.path)
    (fun st' d' hq => match hq with
      | ⟨m, hm, hn⟩ => ⟨m, stepVarParam_mono pat sf.path d' st' m hm, hn⟩)
    sf.decls _ d hd
    (fun st' d' hd' hst => stepVarParam_inv pat sf.path d' st' (hdecl d' hd') hst)
    (fun st' hst => stepVarParam_reports pat sf.path d nn hnn s hs ht st' (hdecl d hd) hst)
    ?_
  exact foldl_pres stInv (stepFunction pat sf.path) sf.decls _
    (fun st' d' hd' hst => stepFunction_inv pat sf.path d' st' (hdecl d' hd') hst)
    (foldl_pres stInv (stepTypeAlias pat sf.path) sf.decls _
      (fun st' d' hd' hst => stepTypeAlias_inv pat sf.path d' st' (hdecl d' hd') hst)
      (foldl_pres stInv (stepInterface pat sf.path) sf.decls _
        (fun st' d' hd' hst => stepInterface_inv pat sf.path d' st' (hdecl d' hd') hst)
        h))

/-- C5 as amended.  For every well-formed project (every identifier node
carries a TS identifier: no brace, bracket-free comma or colon
characters) and every pattern, the batch ts-morph backend's `findSymbols`
returns only identifier names — never the source text of a destructuring
pattern, so no returned name contains a brace or comma — and every
identifier bound inside an object/array destructuring pattern of a
variable or parameter declaration that matches the pattern is reported
individually under its own name. -/
theorem findSymbols_no_pattern_names (proj : TsProject) (pat : String)
    (hgood : ∀ s ∈ projIdents proj, identNameOk s.name = true) :
    (∀ m ∈ findSymbols proj pat, identNameOk m.name = true)
    ∧ (∀ sf ∈ proj, containsSub sf.path "node_modules" = false →
        ∀ d ∈ sf.decls, ∀ nn, declBinding d = some nn →
        ∀ s ∈ bindingIdents nn, rxTest pat s.name = true →
        ∃ m ∈ findSymbols proj pat, m.name = s.name) := by
  have hfileok : ∀ sf ∈ proj, ∀ x ∈ sf.decls.flatMap declIdents,
      identNameOk x.name = true :=
    fun sf hsf x hx => hgood x (List.mem_flatMap.mpr ⟨sf, hsf, hx⟩)
  have hbase : stInv ⟨[], []⟩ := by
    constructor
    · intro m hm
      simp at hm
    · intro k hk
      simp at hk
  have hinv : stInv (proj.foldl (processFileBatch pat) ⟨[], []⟩) :=
    foldl_pres stInv (processFileBatch pat) proj ⟨[], []⟩
      (fun st sf hsf hst => processFileBatch_inv pat sf st (hfileok sf hsf) hst) hbase
  constructor
  · intro m hm
    have hm' : m ∈ (proj.foldl (processFileBatch pat) ⟨[], []⟩).found := by
      rw [findSymbols] at hm
      exact mem_sortBy.mp hm
    exact (hinv.1 m hm').1
  · intro sf hsf hmod d hd nn hnn s hs ht
    have hq : ∃ m ∈ (proj.foldl (processFileBatch pat) ⟨[], []⟩).found,
        m.name = s.name :=
      foldl_reach stInv (fun st => ∃ m ∈ st.found, m.name = s.name)
        (processFileBatch pat)
        (fun st sf' hq => match hq with
          | ⟨m, hm, hn⟩ => ⟨m, processFileBatch_mono pat sf' st m hm, hn⟩)
        proj ⟨[], []⟩ sf hsf
        (fun st sf' hsf' hst => processFileBatch_inv pat sf' st (hfileok sf' hsf') hst)
        (fun st hst =>
          processFileBatch_reports pat sf st hmod (hfileok sf hsf) d hd nn hnn s hs ht hst)
        hbase
    rcases hq with ⟨m, hm, hn⟩
    refine ⟨m, ?_, hn⟩
    rw [findSymbols]
    exact mem_sortBy.mpr hm

/-- Witness for the amended C5 on the destructuring demo project. -/
theorem findSymbols_no_pattern_names_witness :
    (∀ m ∈ findSymbols demoDestructuringProject "vaultDir", identNameOk m.name = true)
    ∧ (∀ sf ∈ demoDestructuringProject, containsSub sf.path "node_modules" = false →
        ∀ d ∈ sf.decls, ∀ nn, declBinding d = some nn →
        ∀ s ∈ bindingIdents nn, rxTest "vaultDir" s.name = true →
        ∃ m ∈ findSymbols demoDestructuringProject "vaultDir", m.name = s.name) :=
  findSymbols_no_pattern_names demoDestructuringProject "vaultDir" (by decide)

/-- C5 counterexample.  The refactor plugin's `findSymbols` (part_003)
tests `varDecl.getName()` — the pattern's source text — so on
`const { vaultDir } = ...` with pattern `vaultDir` it returns the symbol
name `{ vaultDir }`, which contains a brace: the claim is false for that
cited implementation. -/
theorem findSymbolsRefactor_counterexample :
    (findSymbolsRefactor demoDestructuringProject "vaultDir").map (fun m => m.name)
      = ["{ vaultDir }"]
    ∧ (findSymbolsRefactor demoDestructuringProject "vaultDir").any
        (fun m => m.name.data.contains '{' || m.name.data.contains ',') = true :=
  ⟨by decide, by decide⟩

end ClaudeTools
